import Mathlib

/-!
# Eden path functions and dirstate directives

A shallow embedding of `eden/utils/PathFuncs.cpp` (lexical path handling) and of the
directive table operations declared in `eden/fs/inodes/Dirstate.h`.

A `folly::StringPiece` is a list of characters; positions inside a string are
natural-number offsets from `path.begin()`.
-/

namespace Eden

/-! ## Definitions: `PathFuncs.cpp` -/

/-- A `folly::StringPiece`: a sequence of characters. -/
abbrev StringPiece := List Char

/-- The value held by an `AbsolutePath`. -/
abbrev AbsolutePath := List Char

/-- The directory separator `kDirSeparator`. -/
def kDirSeparator : Char := '/'

/-- Modelled from the spec: the default-constructed `AbsolutePath{}` (the class lives in
`PathFuncs.h`, which is not among the sources) is the root, an empty value. -/
def rootPath : AbsolutePath := []

/-- `StringPiece::rfind(c)`: the offset of the last occurrence of `c`, or `none` for
`std::string::npos`. -/
def rfind : StringPiece → Char → Option Nat
  | [], _ => none
  | x :: xs, c =>
    match rfind xs c with
    | some i => some (i + 1)
    | none => if x = c then some 0 else none

/-- `dirname(path)`: `path.subpiece(0, slash)` at the last separator, else `""`. -/
def dirname (path : StringPiece) : StringPiece :=
  match rfind path '/' with
  | some slash => path.take slash
  | none => []

/-- `basename(path)`: `path` advanced past the last separator, else `path`. -/
def basename (path : StringPiece) : StringPiece :=
  match rfind path '/' with
  | some slash => path.drop (slash + 1)
  | none => path

/-- `struct CanonicalData`. -/
structure CanonicalData where
  components : List StringPiece
  isAbsolute : Bool
  deriving DecidableEq, Repr

/-- The local state of `canonicalPathData`: the result under construction and the
offset `componentStart`. -/
structure ScanState where
  data : CanonicalData
  componentStart : Nat
  deriving DecidableEq, Repr

/-- The lambda `processSlash(end)` of `canonicalPathData`: the component is the piece
`[componentStart, end)` of `path`. -/
def processSlash (path : StringPiece) (st : ScanState) (stop : Nat) : ScanState :=
  let component : StringPiece := (path.drop st.componentStart).take (stop - st.componentStart)
  let data := st.data
  let data1 : CanonicalData :=
    if component = [] then
      -- an empty component at the start of the string indicates an absolute path
      if st.componentStart = 0 then { data with isAbsolute := true } else data
    else if component = ['.'] then
      data
    else if component = ['.', '.'] then
      if data.components = [] then
        if !data.isAbsolute then
          { data with components := data.components ++ [component] }
        else data
      else if data.components.getLast? ≠ some ['.', '.'] then
        { data with components := data.components.dropLast }
      else data
    else
      { data with components := data.components ++ [component] }
  { data := data1, componentStart := stop + 1 }

/-- The `for` loop of `canonicalPathData`: `rest` is the unread part of `path`, `p` the
offset of its first character. -/
def scanLoop (path : StringPiece) : List Char → Nat → ScanState → ScanState
  | [], _, st => st
  | c :: rest, p, st =>
    scanLoop path rest (p + 1) (if c = kDirSeparator then processSlash path st p else st)

/-- `canonicalPathData(path)`. -/
def canonicalPathData (path : StringPiece) : CanonicalData :=
  let st := scanLoop path path 0 { data := { components := [], isAbsolute := false },
                                   componentStart := 0 }
  if st.componentStart ≠ path.length then
    (processSlash path st path.length).data
  else
    st.data

/-- The lambda `makeAbsolutePath(parts)` of `canonicalPathImpl`. -/
def makeAbsolutePath (parts : List StringPiece) : AbsolutePath :=
  if parts = [] then rootPath
  else parts.foldl (fun value part => (value ++ ['/']) ++ part) []

/-- The loop of `canonicalPathImpl` over `canon.components`, acting on
`baseCanon.components`. -/
def resolveComponents (baseComponents : List StringPiece) :
    List StringPiece → List StringPiece
  | [] => baseComponents
  | it :: rest =>
    if it = ['.', '.'] then
      resolveComponents (if baseComponents ≠ [] then baseComponents.dropLast
                         else baseComponents) rest
    else
      baseComponents ++ (it :: rest)

/-- The error thrown by `folly::throwSystemError`. -/
structure SystemError where
  message : String
  deriving DecidableEq, Repr

/-- `canonicalPathImpl(path, base)`. The parameter `getcwd` is the outcome of the call
`getcwd()`: the working directory, or the system error it throws. -/
def canonicalPathImpl (getcwd : Except SystemError AbsolutePath) (path : StringPiece)
    (base : Option AbsolutePath) : Except SystemError AbsolutePath :=
  let canon := canonicalPathData path
  if canon.isAbsolute then
    .ok (makeAbsolutePath canon.components)
  else
    let baseCanon : Except SystemError CanonicalData :=
      match base with
      | none =>
        match getcwd with
        | .ok cwd => .ok (canonicalPathData cwd)
        | .error e => .error e
      | some b => .ok (canonicalPathData b)
    match baseCanon with
    | .ok bc => .ok (makeAbsolutePath (resolveComponents bc.components canon.components))
    | .error e => .error e

/-- `canonicalPath(path)`: the base is the working directory. -/
def canonicalPath (getcwd : Except SystemError AbsolutePath) (path : StringPiece) :
    Except SystemError AbsolutePath :=
  canonicalPathImpl getcwd path none

/-- `canonicalPath(path, base)`. -/
def canonicalPathBase (getcwd : Except SystemError AbsolutePath) (path : StringPiece)
    (base : AbsolutePath) : Except SystemError AbsolutePath :=
  canonicalPathImpl getcwd path (some base)

/-! ## Definitions used to state and prove the properties -/

/-- The effect of one `processSlash` call on the component vector, for a component that
is not the empty piece at `path.begin()`; `isAbsolute` is the flag at that moment. -/
def compStep (isAbsolute : Bool) (components : List StringPiece) (component : StringPiece) :
    List StringPiece :=
  if component = [] then components
  else if component = ['.'] then components
  else if component = ['.', '.'] then
    if components = [] then
      if !isAbsolute then components ++ [component] else components
    else if components.getLast? ≠ some ['.', '.'] then components.dropLast
    else components
  else components ++ [component]

/-- The final test and call of `canonicalPathData`, after the loop. -/
def finishScan (path : StringPiece) (st : ScanState) : CanonicalData :=
  if st.componentStart ≠ path.length then (processSlash path st path.length).data else st.data

/-- An ordinary name: not empty, not `.`, not `..`, and without a separator. -/
def Ordinary (c : StringPiece) : Prop :=
  c ≠ [] ∧ c ≠ ['.'] ∧ c ≠ ['.', '.'] ∧ '/' ∉ c

instance (c : StringPiece) : Decidable (Ordinary c) := by
  unfold Ordinary; infer_instance

/-- The shape of every component vector built by `canonicalPathData`: a `..` can only be
the first entry, and only of a relative path; all other entries are ordinary names. -/
def StackInv (isAbsolute : Bool) : List StringPiece → Prop
  | [] => True
  | h :: t => (Ordinary h ∨ (isAbsolute = false ∧ h = ['.', '.'])) ∧ ∀ c ∈ t, Ordinary c

/-- The string written by `makeAbsolutePath` for a non-empty vector: every part preceded
by a separator. -/
def joinParts (parts : List StringPiece) : List Char :=
  (parts.map (fun c => '/' :: c)).flatten

/-- One step of the reference scan: skip empty and `.` components, pop on `..` when the
stack is non-empty and skip the `..` when it is empty, push every other component. -/
def refStep (stack : List StringPiece) (c : StringPiece) : List StringPiece :=
  if c = [] ∨ c = ['.'] then stack
  else if c = ['.', '.'] then (if stack ≠ [] then stack.dropLast else stack)
  else stack ++ [c]

/-- The reference normalisation of an absolute path: split on the separator, scan the
components with a stack, and concatenate `"/" ++ component` over the stack; the root when
the stack is empty. -/
def refNormalise (path : StringPiece) : AbsolutePath :=
  let stack := (path.splitOn '/').foldl refStep []
  if stack = [] then rootPath else (stack.map (fun c => '/' :: c)).flatten

/-- Canonical form of an absolute path value: the root, or a string that starts with the
separator, does not end with it, has no two consecutive separators, and has no component
equal to `.` or `..`. -/
def IsCanonicalForm (r : AbsolutePath) : Prop :=
  r = rootPath ∨
    (r.head? = some '/' ∧ r.getLast? ≠ some '/' ∧ ¬ ['/', '/'] <:+: r ∧
      ∀ c ∈ r.splitOn '/', c ≠ ['.'] ∧ c ≠ ['.', '.'])

/-- A component that counts as one level down: not empty, not `.` and not `..`. -/
def isName (c : StringPiece) : Bool :=
  decide (c ≠ [] ∧ c ≠ ['.'] ∧ c ≠ ['.', '.'])

/-- A path never climbs above its own starting point: every prefix of its component
sequence has at least as many ordinary components as `..` components (empty and `.`
components count for neither). -/
def NeverClimbs (path : StringPiece) : Prop :=
  ∀ pre ∈ (path.splitOn '/').inits, pre.count ['.', '.'] ≤ pre.countP isName

instance (path : StringPiece) : Decidable (NeverClimbs path) := by
  unfold NeverClimbs; infer_instance

/-- A non-root base in canonical form: it starts with the separator, does not end with
it, and none of its components (the pieces after the leading separator) is empty, `.` or
`..`. -/
def IsCanonicalBase (base : AbsolutePath) : Prop :=
  base.head? = some '/' ∧ base.getLast? ≠ some '/' ∧
    ∀ c ∈ base.tail.splitOn '/', c ≠ [] ∧ c ≠ ['.'] ∧ c ≠ ['.', '.']

instance (base : AbsolutePath) : Decidable (IsCanonicalBase base) := by
  unfold IsCanonicalBase; infer_instance

/-! ## Definitions: the directive table of `Dirstate.h` -/

/-- A `RelativePath`, the key of the directive table. -/
abbrev RelativePath := String

/-- `overlay::UserStatusDirective`: a pending user intent. -/
inductive UserStatusDirective where
  | Add
  | Remove
  deriving DecidableEq, Repr

/-- The map `userDirectives_`: at most one directive per path. -/
abbrev DirectiveTable := RelativePath → Option UserStatusDirective

/-- `struct DirstateAddRemoveError`. -/
structure DirstateAddRemoveError where
  path : RelativePath
  errorMessage : String
  deriving DecidableEq, Repr

/-- Modelled from the spec: what the mount and content-store collaborators report (their
classes are not among the sources): the committed content of a path in the base snapshot,
if the snapshot contains the path, and the content of its on-disk entry, if there is
one. -/
structure Mount where
  snapshot : RelativePath → Option String
  disk : RelativePath → Option String

/-- Modelled from the spec: the path is tracked when it is in the base snapshot or has a
pending Add directive (`Dirstate.cpp` is not among the sources). -/
def Dirstate.isTracked (mount : Mount) (directives : DirectiveTable) (path : RelativePath) :
    Bool :=
  (mount.snapshot path).isSome || decide (directives path = some UserStatusDirective.Add)

/-- Modelled from the spec: the on-disk content of the path differs from the content of
the base snapshot, that is, the path carries uncommitted edits (`Dirstate.cpp` is not
among the sources). -/
def Dirstate.contentDiffers (mount : Mount) (path : RelativePath) : Bool :=
  match mount.snapshot path, mount.disk path with
  | some committed, some onDisk => decide (committed ≠ onDisk)
  | _, _ => false

/-- The members of `Dirstate` that `remove` reads and writes, with the caller's list
`errorsToReport`. -/
structure DirstateState where
  userDirectives : DirectiveTable
  errorsToReport : List DirstateAddRemoveError

/-- Modelled from the spec: `Dirstate::remove(path, force, errorsToReport)`, whose body is
in `Dirstate.cpp`, not among the sources. A path that is not tracked gets a "not tracked"
error; a tracked path with uncommitted edits and no `force` gets an "uncommitted changes"
error; otherwise a path that was never in the base snapshot loses its Add directive, and
any other path gets a Remove directive. -/
def Dirstate.remove (mount : Mount) (path : RelativePath) (force : Bool)
    (st : DirstateState) : DirstateState :=
  if !Dirstate.isTracked mount st.userDirectives path then
    { st with errorsToReport := st.errorsToReport ++ [⟨path, "not tracked"⟩] }
  else if Dirstate.contentDiffers mount path && !force then
    { st with errorsToReport := st.errorsToReport ++ [⟨path, "uncommitted changes"⟩] }
  else if (mount.snapshot path).isNone then
    { st with userDirectives := fun q => if q = path then none else st.userDirectives q }
  else
    { st with userDirectives := fun q =>
        if q = path then some UserStatusDirective.Remove else st.userDirectives q }

/-- Modelled from the spec: the directories of the working copy, as the mount collaborator
reports them (its class is not among the sources): for a path that names a directory, the
files below it. -/
abbrev DirectoryListing := RelativePath → Option (List RelativePath)

/-- Modelled from the spec: the path names a directory (`Dirstate.cpp` is not among the
sources): the listing knows it as one, and it has no file content on disk; a path with
content on disk is an ordinary file. -/
def Dirstate.namesDirectory (mount : Mount) (listing : DirectoryListing)
    (path : RelativePath) : Bool :=
  (mount.disk path).isNone && (listing path).isSome

/-- Modelled from the spec: the recursion of `removeAll` into a directory (`Dirstate.cpp`
is not among the sources), symmetric to the one of `addAll`: every descendant file that
is tracked is handed to the single-path removal; the other descendants are skipped. -/
def Dirstate.removeTracked (mount : Mount) (force : Bool) :
    List RelativePath → DirstateState → DirstateState
  | [], st => st
  | file :: rest, st =>
    Dirstate.removeTracked mount force rest
      (if Dirstate.isTracked mount st.userDirectives file then
        Dirstate.remove mount file force st
      else st)

/-- Modelled from the spec: what `removeAll` does for one input path (`Dirstate.cpp` is not
among the sources): a directory is walked for its tracked files, every other path (an
ordinary file or symlink, possibly already deleted from disk) is handed to the
single-path removal. -/
def Dirstate.removeArgument (mount : Mount) (listing : DirectoryListing)
    (path : RelativePath) (force : Bool) (st : DirstateState) : DirstateState :=
  if Dirstate.namesDirectory mount listing path then
    Dirstate.removeTracked mount force ((listing path).getD []) st
  else
    Dirstate.remove mount path force st

/-- Modelled from the spec: `Dirstate::removeAll(paths, force, errorsToReport)`, whose body
is in `Dirstate.cpp`, not among the sources: the input paths, each a file or a directory
in the manifest, are handled one after the other, and a failure does not stop the
batch. -/
def Dirstate.removeAll (mount : Mount) (listing : DirectoryListing) :
    List RelativePath → Bool → DirstateState → DirstateState
  | [], _, st => st
  | path :: rest, force, st =>
    Dirstate.removeAll mount listing rest force
      (Dirstate.removeArgument mount listing path force st)

/-- Modelled from the spec: `Dirstate::onSnapshotChanged(rootTree)`, whose body is in
`Dirstate.cpp`, not among the sources; `tree` tells which paths the new base tree
contains. An Add directive is dropped if the tree contains its path, a Remove directive
if the tree does not; every other directive is kept. -/
def Dirstate.onSnapshotChanged (tree : RelativePath → Bool) (directives : DirectiveTable) :
    DirectiveTable :=
  fun path =>
    match directives path with
    | some UserStatusDirective.Add =>
      if tree path then none else some UserStatusDirective.Add
    | some UserStatusDirective.Remove =>
      if tree path then some UserStatusDirective.Remove else none
    | none => none

/-- A mount with one file `f.txt`, committed with content `old` and edited on disk to
`new`, and an untracked file `g.txt` on disk. -/
def exampleMount : Mount where
  snapshot := fun q => if q = "f.txt" then some "old" else none
  disk := fun q => if q = "f.txt" then some "new" else if q = "g.txt" then some "g" else none

/-- The empty directive table. -/
def emptyDirectives : DirectiveTable := fun _ => none

/-- Modelled from the spec: the enumeration `StatusCode` (it is declared with the service
interface, not among the sources). -/
inductive StatusCode where
  | Clean
  | Modified
  | Added
  | Removed
  | Missing
  | NotTracked
  | Ignored
  deriving DecidableEq, Repr

/-- Modelled from the spec: the recursion of `addAll` into a directory (`Dirstate.cpp` is
not among the sources): every descendant file that is not tracked gets an Add
directive. -/
def Dirstate.addFiles (mount : Mount) : List RelativePath → DirectiveTable → DirectiveTable
  | [], directives => directives
  | file :: rest, directives =>
    Dirstate.addFiles mount rest
      (if !Dirstate.isTracked mount directives file then
        fun q => if q = file then some UserStatusDirective.Add else directives q
      else directives)

/-- Modelled from the spec: what `addAll` does for one input path (`Dirstate.cpp` is not
among the sources). A directory is walked for its untracked files; a path without any
filesystem entry gets an error (the spec does not give its text); a file that is already
tracked is left alone; a file that is not tracked gets an Add directive. -/
def Dirstate.addPath (mount : Mount) (listing : DirectoryListing) (path : RelativePath)
    (st : DirstateState) : DirstateState :=
  match listing path with
  | some files => { st with userDirectives := Dirstate.addFiles mount files st.userDirectives }
  | none =>
    if (mount.disk path).isNone then
      { st with errorsToReport := st.errorsToReport ++ [⟨path, "no such file"⟩] }
    else if Dirstate.isTracked mount st.userDirectives path then
      st
    else
      { st with userDirectives := fun q =>
          if q = path then some UserStatusDirective.Add else st.userDirectives q }

/-- Modelled from the spec: `Dirstate::addAll(paths, errorsToReport)`, whose body is in
`Dirstate.cpp`, not among the sources: the input paths are handled one after the other,
and a failure does not stop the batch. -/
def Dirstate.addAll (mount : Mount) (listing : DirectoryListing) :
    List RelativePath → DirstateState → DirstateState
  | [], st => st
  | path :: rest, st =>
    Dirstate.addAll mount listing rest (Dirstate.addPath mount listing path st)

/-- Modelled from the spec: the status that the status query gives to a path, ignore
rules apart (`Dirstate.cpp` is not among the sources). A path on disk and in the base
snapshot is Clean or Modified; a path on disk only is NotTracked, or Added under an Add
directive; a path in the snapshot only is Missing, or Removed under a Remove directive; a
path in neither is not in the overlay, hence Clean. -/
def Dirstate.classify (mount : Mount) (directives : DirectiveTable) (path : RelativePath) :
    StatusCode :=
  match mount.snapshot path, mount.disk path with
  | some committed, some onDisk =>
    if committed = onDisk then StatusCode.Clean else StatusCode.Modified
  | none, some _ =>
    if directives path = some UserStatusDirective.Add then StatusCode.Added
    else StatusCode.NotTracked
  | some _, none =>
    if directives path = some UserStatusDirective.Remove then StatusCode.Removed
    else StatusCode.Missing
  | none, none => StatusCode.Clean

/-- A working copy without directories. -/
def noDirectories : DirectoryListing := fun _ => none

end Eden

/-! ## Theorems: `canonicalPathData` as a scan over the split components -/

namespace Eden

theorem compStep_nil (a : Bool) (s : List StringPiece) : compStep a s [] = s := by
  simp [compStep]

theorem modifyHead_append_nil (l : List (List Char)) :
    List.modifyHead (fun x => ([] : List Char) ++ x) l = l := by
  cases l <;> simp

theorem modifyHead_comp (f g : List Char → List Char) (l : List (List Char)) :
    List.modifyHead f (List.modifyHead g l) = List.modifyHead (fun x => f (g x)) l := by
  cases l <;> simp

theorem splitOn_cons (c : Char) (cs : List Char) :
    (c :: cs).splitOn '/' =
      if c = '/' then [] :: cs.splitOn '/' else (cs.splitOn '/').modifyHead (List.cons c) := by
  simp only [List.splitOn, List.splitOnP_cons]
  by_cases h : c = '/' <;> simp [h]

theorem splitOn_ne_nil (cs : List Char) : cs.splitOn '/' ≠ [] :=
  List.splitOnP_ne_nil _ _

theorem processSlash_data (path : StringPiece) (d : CanonicalData) (s stop : Nat)
    (h : (path.drop s).take (stop - s) ≠ [] ∨ s ≠ 0) :
    (processSlash path ⟨d, s⟩ stop).data =
      ⟨compStep d.isAbsolute d.components ((path.drop s).take (stop - s)), d.isAbsolute⟩ := by
  cases d with | mk comps a => ?_
  simp only [processSlash, compStep]
  by_cases h1 : (path.drop s).take (stop - s) = []
  · have hs : s ≠ 0 := by
      rcases h with h | h
      · exact absurd h1 h
      · exact h
    simp [h1, hs]
  · simp only [h1, if_false]
    split_ifs <;> simp_all

theorem processSlash_start (path : StringPiece) (d : CanonicalData) (s stop : Nat) :
    (processSlash path ⟨d, s⟩ stop).componentStart = stop + 1 := rfl

theorem processSlash_eq (path : StringPiece) (d : CanonicalData) (s stop : Nat)
    (h : (path.drop s).take (stop - s) ≠ [] ∨ s ≠ 0) :
    processSlash path ⟨d, s⟩ stop =
      ⟨⟨compStep d.isAbsolute d.components ((path.drop s).take (stop - s)), d.isAbsolute⟩,
        stop + 1⟩ := by
  have h1 := processSlash_data path d s stop h
  have h2 := processSlash_start path d s stop
  cases hp : processSlash path ⟨d, s⟩ stop with
  | mk dd cc =>
    rw [hp] at h1 h2
    simp only at h1 h2
    rw [h1, h2]

theorem component_extract (pre cur rest : List Char) :
    ((pre ++ cur ++ rest).drop pre.length).take (pre.length + cur.length - pre.length) = cur := by
  simp [List.append_assoc]

/-- The loop of `canonicalPathData` followed by its final call, started in the middle of
the path: `pre` is the part before `componentStart`, `cur` the part of the current
component already read. -/
theorem scanLoop_spec (path : StringPiece) :
    ∀ (rest pre cur : List Char) (d : CanonicalData),
      path = pre ++ cur ++ rest → (pre = [] → cur ≠ []) →
      finishScan path (scanLoop path rest (pre.length + cur.length) ⟨d, pre.length⟩) =
        ⟨List.foldl (compStep d.isAbsolute) d.components
            (List.modifyHead (fun x => cur ++ x) (rest.splitOn '/')), d.isAbsolute⟩ := by
  intro rest
  induction rest with
  | nil =>
    intro pre cur d hpath hcur
    have hcomp := component_extract pre cur []
    rw [← hpath] at hcomp
    simp only [scanLoop, finishScan, List.splitOn_nil, List.modifyHead_cons, List.append_nil,
      List.foldl_cons, List.foldl_nil]
    have hlen : path.length = pre.length + cur.length := by simp [hpath]
    by_cases hc : cur = []
    · have hpre : pre ≠ [] := fun h => hcur h hc
      subst hc
      simp [hlen, compStep_nil]
    · have hne : pre.length ≠ path.length := by
        rw [hlen]
        have : 0 < cur.length := List.length_pos.mpr hc
        omega
      rw [if_pos hne, processSlash_data path d pre.length path.length
        (by rw [hlen, hcomp]; exact Or.inl hc), hlen, hcomp]
  | cons c r ih =>
    intro pre cur d hpath hcur
    have hcomp := component_extract pre cur (c :: r)
    rw [← hpath] at hcomp
    by_cases hc : c = '/'
    · subst hc
      have hstart : cur ≠ [] ∨ pre.length ≠ 0 := by
        by_cases hp : pre = []
        · exact Or.inl (hcur hp)
        · exact Or.inr (fun h => hp (List.length_eq_zero.mp h))
      have hps := processSlash_eq path d pre.length (pre.length + cur.length)
        (by rw [hcomp]; exact hstart)
      rw [hcomp] at hps
      have hih := ih (pre ++ cur ++ ['/']) [] ⟨compStep d.isAbsolute d.components cur, d.isAbsolute⟩
        (by simp [hpath]) (by simp)
      simp only [List.length_append, List.length_singleton, List.length_nil, Nat.add_zero] at hih
      simp only [scanLoop, kDirSeparator, if_true, hps]
      rw [hih, splitOn_cons, if_pos rfl, modifyHead_append_nil]
      simp
    · have hih := ih pre (cur ++ [c]) d (by simp [hpath]) (by simp)
      simp only [List.length_append, List.length_singleton] at hih
      simp only [scanLoop, kDirSeparator, if_neg hc]
      rw [← Nat.add_assoc] at hih
      rw [hih, splitOn_cons, if_neg hc, modifyHead_comp]
      simp

/-- The flag and the components computed by `canonicalPathData`: the path is absolute
exactly when it starts with the separator, and the components are the result of folding
`compStep` over the pieces between separators. -/
theorem canonicalPathData_eq (path : StringPiece) :
    canonicalPathData path =
      ⟨List.foldl (compStep (decide (path.head? = some '/'))) [] (path.splitOn '/'),
        decide (path.head? = some '/')⟩ := by
  cases path with
  | nil => simp [canonicalPathData, scanLoop, compStep_nil]
  | cons c r =>
    have hfin : canonicalPathData (c :: r) =
        finishScan (c :: r) (scanLoop (c :: r) (c :: r) 0 ⟨⟨[], false⟩, 0⟩) := rfl
    rw [hfin]
    by_cases hc : c = '/'
    · subst hc
      have hps : processSlash ('/' :: r) ⟨⟨[], false⟩, 0⟩ 0 = ⟨⟨[], true⟩, 1⟩ := by
        simp [processSlash]
      have hsp := scanLoop_spec ('/' :: r) r ['/'] [] ⟨[], true⟩ (by simp) (by simp)
      simp only [List.length_singleton, List.length_nil, Nat.add_zero] at hsp
      simp only [scanLoop, kDirSeparator, if_true, hps, Nat.zero_add]
      rw [hsp, splitOn_cons, if_pos rfl, modifyHead_append_nil]
      simp [compStep_nil]
    · have hsp := scanLoop_spec (c :: r) r [] [c] ⟨[], false⟩ (by simp) (by simp)
      simp only [List.length_singleton, List.length_nil, Nat.zero_add] at hsp
      simp only [scanLoop, kDirSeparator, if_neg hc, Nat.zero_add]
      rw [hsp, splitOn_cons, if_neg hc]
      simp [hc]

theorem canonicalPathData_isAbsolute (path : StringPiece) :
    (canonicalPathData path).isAbsolute = decide (path.head? = some '/') := by
  rw [canonicalPathData_eq]

theorem canonicalPathData_components (path : StringPiece) :
    (canonicalPathData path).components =
      List.foldl (compStep (decide (path.head? = some '/'))) [] (path.splitOn '/') := by
  rw [canonicalPathData_eq]

/-! ## Theorems: shape of the component vector and of the resulting string -/

theorem foldl_push_eq (parts : List StringPiece) (acc : List Char) :
    parts.foldl (fun value part => (value ++ ['/']) ++ part) acc = acc ++ joinParts parts := by
  induction parts generalizing acc with
  | nil => simp [joinParts]
  | cons p ps ih =>
    simp only [List.foldl_cons, ih]
    simp [joinParts, List.append_assoc]

theorem makeAbsolutePath_eq (parts : List StringPiece) :
    makeAbsolutePath parts = if parts = [] then rootPath else joinParts parts := by
  unfold makeAbsolutePath
  split_ifs
  · rfl
  · rw [foldl_push_eq]; simp

theorem splitOn_no_slash (path : List Char) : ∀ c ∈ path.splitOn '/', '/' ∉ c := by
  induction path with
  | nil => simp
  | cons x xs ih =>
    rw [splitOn_cons]
    by_cases hx : x = '/'
    · simp only [if_pos hx]
      intro c hc
      rcases List.mem_cons.mp hc with h | h
      · subst h; simp
      · exact ih c h
    · simp only [if_neg hx]
      cases hs : xs.splitOn '/' with
      | nil => simp
      | cons h t =>
        rw [hs] at ih
        intro c hc
        simp only [List.modifyHead_cons, List.mem_cons] at hc
        rcases hc with h1 | h1
        · subst h1
          have := ih h (List.mem_cons_self _ _)
          simp only [List.mem_cons, not_or]
          exact ⟨fun e => hx e.symm, this⟩
        · exact ih c (List.mem_cons_of_mem _ h1)

theorem stackInv_append (a : Bool) (s : List StringPiece) (c : StringPiece)
    (hs : StackInv a s) (hc : Ordinary c) : StackInv a (s ++ [c]) := by
  cases s with
  | nil => exact ⟨Or.inl hc, by simp⟩
  | cons h t =>
    refine ⟨hs.1, ?_⟩
    intro x hx
    rcases List.mem_append.mp hx with h1 | h1
    · exact hs.2 x h1
    · simp only [List.mem_singleton] at h1
      subst h1; exact hc

theorem stackInv_dropLast (a : Bool) (s : List StringPiece) (hs : StackInv a s) :
    StackInv a s.dropLast := by
  cases s with
  | nil => exact hs
  | cons h t =>
    cases t with
    | nil => simp [StackInv]
    | cons h2 t2 =>
      rw [List.dropLast_cons₂]
      exact ⟨hs.1, fun x hx => hs.2 x (List.dropLast_subset _ hx)⟩

theorem stackInv_compStep (a : Bool) (s : List StringPiece) (c : StringPiece)
    (hs : StackInv a s) (hc : '/' ∉ c) : StackInv a (compStep a s c) := by
  unfold compStep
  split_ifs with h1 h2 h3 h4 h5 h6
  · exact hs
  · exact hs
  · subst h4
    cases a with
    | false => rw [h3]; exact ⟨Or.inr ⟨rfl, rfl⟩, by simp⟩
    | true => simp at h5
  · exact hs
  · exact stackInv_dropLast a s hs
  · exact hs
  · exact stackInv_append a s c hs ⟨h1, h2, h3, hc⟩

theorem stackInv_foldl (a : Bool) (comps : List StringPiece) :
    ∀ s, StackInv a s → (∀ c ∈ comps, '/' ∉ c) → StackInv a (comps.foldl (compStep a) s) := by
  induction comps with
  | nil => intro s hs _; exact hs
  | cons c cs ih =>
    intro s hs hc
    simp only [List.foldl_cons]
    exact ih _ (stackInv_compStep a s c hs (hc c (List.mem_cons_self _ _)))
      (fun x hx => hc x (List.mem_cons_of_mem _ hx))

/-- The component vector of `canonicalPathData` has the shape `StackInv`. -/
theorem canonicalPathData_stackInv (path : StringPiece) :
    StackInv (canonicalPathData path).isAbsolute (canonicalPathData path).components := by
  rw [canonicalPathData_eq]
  exact stackInv_foldl _ _ [] trivial (splitOn_no_slash path)

theorem stackInv_true (s : List StringPiece) (hs : StackInv true s) : ∀ c ∈ s, Ordinary c := by
  cases s with
  | nil => simp
  | cons h t =>
    intro c hc
    rcases List.mem_cons.mp hc with h1 | h1
    · subst h1
      rcases hs.1 with h2 | h2
      · exact h2
      · simp at h2
    · exact hs.2 c h1

/-- For a path that starts with the separator all components are ordinary names. -/
theorem canonicalPathData_abs_ordinary (path : StringPiece) (h : path.head? = some '/') :
    ∀ c ∈ (canonicalPathData path).components, Ordinary c := by
  have hinv := canonicalPathData_stackInv path
  rw [canonicalPathData_isAbsolute, decide_eq_true h] at hinv
  exact stackInv_true _ hinv

/-! ## Theorems: absolute paths -/

theorem ordinary_getLast (s : List StringPiece) (hs : ∀ c ∈ s, Ordinary c) :
    s.getLast? ≠ some ['.', '.'] := by
  intro h
  have hm : ['.', '.'] ∈ s := List.mem_of_getLast?_eq_some h
  exact (hs _ hm).2.2.1 rfl

theorem compStep_true_eq_refStep (s : List StringPiece) (c : StringPiece)
    (hs : ∀ x ∈ s, Ordinary x) : compStep true s c = refStep s c := by
  have hl := ordinary_getLast s hs
  unfold compStep refStep
  by_cases h1 : c = []
  · simp [h1]
  · by_cases h2 : c = ['.']
    · simp [h2]
    · by_cases h3 : c = ['.', '.']
      · subst h3
        by_cases h4 : s = []
        · simp [h4]
        · simp [h4, hl]
      · simp [h1, h2, h3]

theorem foldl_compStep_true_eq_ref (comps : List StringPiece) :
    ∀ s, StackInv true s → (∀ c ∈ comps, '/' ∉ c) →
      comps.foldl (compStep true) s = comps.foldl refStep s := by
  induction comps with
  | nil => intro s _ _; rfl
  | cons c cs ih =>
    intro s hs hc
    simp only [List.foldl_cons]
    rw [← compStep_true_eq_refStep s c (stackInv_true s hs)]
    exact ih _ (stackInv_compStep true s c hs (hc c (List.mem_cons_self _ _)))
      (fun x hx => hc x (List.mem_cons_of_mem _ hx))

theorem canonicalPathImpl_absolute (getcwd : Except SystemError AbsolutePath)
    (path : StringPiece) (base : Option AbsolutePath) (h : path.head? = some '/') :
    canonicalPathImpl getcwd path base = .ok (refNormalise path) := by
  unfold canonicalPathImpl
  simp only [canonicalPathData_isAbsolute, decide_eq_true h, if_true]
  rw [makeAbsolutePath_eq, canonicalPathData_components, decide_eq_true h,
    foldl_compStep_true_eq_ref _ [] trivial (splitOn_no_slash path)]
  rfl

/-- C1: for a path that begins with the separator, `canonicalPath(path)` and
`canonicalPath(path, base)` for any base return exactly the reference normalisation:
split on the separator, scan the components with a stack (skip empty and `.`, pop on `..`
when the stack is non-empty, push the others), and concatenate a separator followed by
the component for every stack entry, the root when the stack is empty. -/
theorem C1_canonicalPath_absolute_reference (getcwd : Except SystemError AbsolutePath)
    (path : StringPiece) (h : path.head? = some '/') :
    canonicalPath getcwd path = .ok (refNormalise path) ∧
      ∀ base : AbsolutePath, canonicalPathBase getcwd path base = .ok (refNormalise path) :=
  ⟨canonicalPathImpl_absolute getcwd path none h,
    fun base => canonicalPathImpl_absolute getcwd path (some base) h⟩

/-- C1 at `"/a/./b/../c"`: the result is `"/a/c"`, with or without a base. -/
theorem C1_witness :
    "/a/./b/../c".toList.head? = some '/' ∧
      refNormalise "/a/./b/../c".toList = "/a/c".toList ∧
      canonicalPath (.error ⟨"getcwd() failed"⟩) "/a/./b/../c".toList =
        .ok (refNormalise "/a/./b/../c".toList) ∧
      ∀ base : AbsolutePath,
        canonicalPathBase (.error ⟨"getcwd() failed"⟩) "/a/./b/../c".toList base =
          .ok (refNormalise "/a/./b/../c".toList) :=
  ⟨by decide, by decide,
    C1_canonicalPath_absolute_reference (.error ⟨"getcwd() failed"⟩) "/a/./b/../c".toList
      (by decide)⟩

/-! ## Theorems: relative paths -/

theorem resolveComponents_ordinary (b comps : List StringPiece)
    (h : ∀ c ∈ comps, Ordinary c) : resolveComponents b comps = b ++ comps := by
  cases comps with
  | nil => simp [resolveComponents]
  | cons x xs =>
    have hx : x ≠ ['.', '.'] := (h x (List.mem_cons_self _ _)).2.2.1
    simp [resolveComponents, hx]

theorem resolveComponents_dotdot (b rest : List StringPiece) :
    resolveComponents b (['.', '.'] :: rest) = resolveComponents b.dropLast rest := by
  cases b <;> simp [resolveComponents]

theorem resolveComponents_all_ordinary (a : Bool) (b comps : List StringPiece)
    (hb : ∀ c ∈ b, Ordinary c) (hc : StackInv a comps) :
    ∀ c ∈ resolveComponents b comps, Ordinary c := by
  cases comps with
  | nil => simpa [resolveComponents] using hb
  | cons x xs =>
    by_cases hx : x = ['.', '.']
    · subst hx
      rw [resolveComponents_dotdot, resolveComponents_ordinary _ _ hc.2]
      intro c hmem
      rcases List.mem_append.mp hmem with h1 | h1
      · exact hb c (List.dropLast_subset _ h1)
      · exact hc.2 c h1
    · have hox : Ordinary x := by
        rcases hc.1 with h1 | h1
        · exact h1
        · exact absurd h1.2 hx
      rw [resolveComponents_ordinary b (x :: xs)]
      · intro c hmem
        rcases List.mem_append.mp hmem with h1 | h1
        · exact hb c h1
        · rcases List.mem_cons.mp h1 with h2 | h2
          · subst h2; exact hox
          · exact hc.2 c h2
      · intro c hmem
        rcases List.mem_cons.mp hmem with h2 | h2
        · subst h2; exact hox
        · exact hc.2 c h2

/-- With an explicit base that starts with the separator, `canonicalPathImpl` returns
`makeAbsolutePath` of a vector of ordinary names. -/
theorem canonicalPathImpl_base_ordinary (getcwd : Except SystemError AbsolutePath)
    (path : StringPiece) (base : AbsolutePath) (hb : base.head? = some '/') :
    ∃ comps : List StringPiece, (∀ c ∈ comps, Ordinary c) ∧
      canonicalPathImpl getcwd path (some base) = .ok (makeAbsolutePath comps) := by
  unfold canonicalPathImpl
  by_cases ha : (canonicalPathData path).isAbsolute = true
  · refine ⟨(canonicalPathData path).components, ?_, by simp [ha]⟩
    rw [canonicalPathData_isAbsolute] at ha
    exact canonicalPathData_abs_ordinary path (of_decide_eq_true ha)
  · refine ⟨resolveComponents (canonicalPathData base).components
      (canonicalPathData path).components, ?_, by simp [ha]⟩
    exact resolveComponents_all_ordinary _ _ _ (canonicalPathData_abs_ordinary base hb)
      (canonicalPathData_stackInv path)

theorem joinParts_cons (c : StringPiece) (cs : List StringPiece) :
    joinParts (c :: cs) = '/' :: (c ++ joinParts cs) := by
  simp [joinParts]

theorem joinParts_append (xs ys : List StringPiece) :
    joinParts (xs ++ ys) = joinParts xs ++ joinParts ys := by
  simp [joinParts]

theorem splitOn_append_joinParts (cs : List StringPiece) :
    ∀ c : StringPiece, '/' ∉ c → (∀ x ∈ cs, '/' ∉ x) →
      (c ++ joinParts cs).splitOn '/' = c :: cs := by
  induction cs with
  | nil =>
    intro c hc _
    simp only [joinParts, List.map_nil, List.flatten_nil, List.append_nil]
    exact List.splitOnP_eq_single _ _ (fun x hx hp => hc (by simpa using (show x = '/' by simpa using hp) ▸ hx))
  | cons d ds ih =>
    intro c hc hcs
    rw [joinParts_cons, List.splitOn, List.splitOnP_first _ _ (fun x hx hp => hc (by simpa using (show x = '/' by simpa using hp) ▸ hx)) '/' (by simp)]
    have := ih d (hcs d (List.mem_cons_self _ _)) (fun x hx => hcs x (List.mem_cons_of_mem _ hx))
    rw [List.splitOn] at this
    rw [this]

theorem splitOn_joinParts (cs : List StringPiece) (h : ∀ x ∈ cs, '/' ∉ x) :
    (joinParts cs).splitOn '/' = [] :: cs := by
  have := splitOn_append_joinParts cs [] (by simp) h
  simpa using this

theorem no_double_slash_append (c : StringPiece) (hc : '/' ∉ c) (rest : List Char)
    (h : ['/', '/'] <:+: c ++ rest) : ['/', '/'] <:+: rest := by
  induction c with
  | nil => simpa using h
  | cons x xs ih =>
    simp only [List.mem_cons, not_or] at hc
    rw [List.cons_append, List.infix_cons_iff] at h
    rcases h with h | h
    · rw [List.cons_prefix_cons] at h
      exact absurd h.1 hc.1
    · exact ih hc.2 h

theorem no_double_slash_joinParts (cs : List StringPiece) (h : ∀ c ∈ cs, Ordinary c) :
    ¬ ['/', '/'] <:+: joinParts cs := by
  induction cs with
  | nil => simp [joinParts]
  | cons c cs ih =>
    have hc := h c (List.mem_cons_self _ _)
    rw [joinParts_cons, List.infix_cons_iff]
    rintro (hp | hi)
    · rw [List.cons_prefix_cons] at hp
      obtain ⟨x, xs, hx⟩ := List.exists_cons_of_ne_nil hc.1
      rw [hx, List.cons_append, List.cons_prefix_cons] at hp
      have : '/' ∈ c := by rw [hx, ← hp.2.1]; exact List.mem_cons_self _ _
      exact hc.2.2.2 this
    · exact ih (fun x hx => h x (List.mem_cons_of_mem _ hx))
        (no_double_slash_append c hc.2.2.2 _ hi)

theorem getLast_joinParts (cs : List StringPiece) (hne : cs ≠ [])
    (h : ∀ c ∈ cs, Ordinary c) : (joinParts cs).getLast? ≠ some '/' := by
  obtain ⟨init, l, hl⟩ : ∃ init l, cs = init ++ [l] := by
    refine ⟨cs.dropLast, cs.getLast hne, ?_⟩
    exact (List.dropLast_append_getLast hne).symm
  have hlo : Ordinary l := h l (by rw [hl]; simp)
  obtain ⟨init2, y, hy⟩ : ∃ init2 y, l = init2 ++ [y] := by
    refine ⟨l.dropLast, l.getLast hlo.1, ?_⟩
    exact (List.dropLast_append_getLast hlo.1).symm
  have hjoin : joinParts cs = (joinParts init ++ '/' :: init2) ++ [y] := by
    rw [hl, joinParts_append, joinParts_cons, hy]
    simp [joinParts]
  rw [hjoin, List.getLast?_concat]
  intro hy2
  apply hlo.2.2.2
  rw [hy, Option.some.inj hy2]; simp

theorem isCanonicalForm_makeAbsolutePath (comps : List StringPiece)
    (h : ∀ c ∈ comps, Ordinary c) : IsCanonicalForm (makeAbsolutePath comps) := by
  rw [makeAbsolutePath_eq]
  by_cases hne : comps = []
  · simp [hne, IsCanonicalForm]
  · rw [if_neg hne]
    refine Or.inr ⟨?_, getLast_joinParts comps hne h, no_double_slash_joinParts comps h, ?_⟩
    · obtain ⟨x, xs, hx⟩ := List.exists_cons_of_ne_nil hne
      rw [hx, joinParts_cons]; rfl
    · rw [splitOn_joinParts comps (fun x hx => (h x hx).2.2.2)]
      intro c hc
      rcases List.mem_cons.mp hc with h1 | h1
      · subst h1; simp
      · exact ⟨(h c h1).2.1, (h c h1).2.2.1⟩

/-- C2 (failing input): for the relative path `"../../a"` the second `..` is dropped by
`canonicalPathData`, so against the base `"/x/y/z"` only one component of the base is
popped: the code returns `"/x/y/a"`, not the path `"/x/a"` whose components are
`b1..b(m - min(k, m))` followed by the names. -/
theorem C2_second_dotdot_is_dropped :
    (canonicalPathData "../../a".toList).components = ["..".toList, "a".toList] ∧
      (canonicalPathData "/x/y/z".toList).components = ["x".toList, "y".toList, "z".toList] ∧
      (∀ getcwd, canonicalPathBase getcwd "../../a".toList "/x/y/z".toList =
        .ok "/x/y/a".toList) ∧
      makeAbsolutePath (["x".toList, "y".toList, "z".toList].take (3 - min 2 3) ++ ["a".toList]) =
        "/x/a".toList ∧
      "/x/y/a".toList ≠ "/x/a".toList := by
  refine ⟨by decide, by decide, fun _ => rfl, by decide, by decide⟩

/-- C3: for every path and every base that begins with the separator, the result of
`canonicalPath(path, base)` is in canonical form: the root, or a string that starts with
the separator, does not end with it, contains no two consecutive separators, and has no
component equal to `.` or `..`. -/
theorem C3_canonicalPath_result_canonical (getcwd : Except SystemError AbsolutePath)
    (path : StringPiece) (base : AbsolutePath) (hb : base.head? = some '/') :
    ∃ r, canonicalPathBase getcwd path base = .ok r ∧ IsCanonicalForm r := by
  obtain ⟨comps, hc, hr⟩ := canonicalPathImpl_base_ordinary getcwd path base hb
  exact ⟨makeAbsolutePath comps, hr, isCanonicalForm_makeAbsolutePath comps hc⟩

/-- C3 at the path `"../b/./c//"` and the base `"/x/y"`. -/
theorem C3_witness :
    "/x/y".toList.head? = some '/' ∧
      ∃ r, canonicalPathBase (.error ⟨"getcwd() failed"⟩) "../b/./c//".toList "/x/y".toList =
        .ok r ∧ IsCanonicalForm r :=
  ⟨by decide,
    C3_canonicalPath_result_canonical (.error ⟨"getcwd() failed"⟩) "../b/./c//".toList
      "/x/y".toList (by decide)⟩

theorem getLast_ne_dotdot (s : List StringPiece) (hs : ∀ c ∈ s, c ≠ ['.', '.']) :
    s.getLast? ≠ some ['.', '.'] := by
  intro h
  exact hs _ (List.mem_of_getLast?_eq_some h) rfl

theorem splitOn_append_sep (base path : List Char) :
    (base ++ '/' :: path).splitOn '/' = base.splitOn '/' ++ path.splitOn '/' := by
  induction base with
  | nil => rw [List.nil_append, splitOn_cons, if_pos rfl]; simp
  | cons c cs ih =>
    rw [List.cons_append, splitOn_cons, splitOn_cons, ih]
    by_cases hc : c = '/'
    · simp [hc]
    · simp only [if_neg hc]
      cases hs : cs.splitOn '/' with
      | nil => exact absurd hs (splitOn_ne_nil cs)
      | cons h t => simp

/-- Folding `compStep` over components that never pop below the part `s` of the stack
leaves the part `s0` under it untouched, whatever the `isAbsolute` flags are. -/
theorem foldl_compStep_shift (a b : Bool) (comps : List StringPiece) :
    ∀ (s0 s : List StringPiece), (∀ x ∈ s0 ++ s, x ≠ ['.', '.']) →
      (∀ pre, pre <+: comps → pre.count ['.', '.'] ≤ s.length + pre.countP isName) →
      comps.foldl (compStep a) (s0 ++ s) = s0 ++ comps.foldl (compStep b) s ∧
        ∀ x ∈ comps.foldl (compStep b) s, x ≠ ['.', '.'] := by
  induction comps with
  | nil =>
    intro s0 s hs _
    exact ⟨rfl, fun x hx => hs x (List.mem_append_right _ hx)⟩
  | cons c cs ih =>
    intro s0 s hs hpre
    simp only [List.foldl_cons]
    have hone := hpre [c] (by simp)
    have htail : ∀ pre, pre <+: cs →
        (c :: pre).count ['.', '.'] ≤ s.length + (c :: pre).countP isName :=
      fun pre hp => hpre (c :: pre) (by simpa using hp)
    by_cases h1 : c = []
    · subst h1
      simp only [compStep_nil]
      exact ih s0 s hs (fun pre hp => by simpa [isName] using htail pre hp)
    · by_cases h2 : c = ['.']
      · subst h2
        have e1 : ∀ (f : Bool) (t : List StringPiece), compStep f t ['.'] = t := by
          intro f t; simp [compStep]
        simp only [e1]
        exact ih s0 s hs (fun pre hp => by simpa [isName] using htail pre hp)
      · by_cases h3 : c = ['.', '.']
        · subst h3
          have hsne : s ≠ [] := by
            intro hnil
            subst hnil
            simp [isName] at hone
          have hlen : 0 < s.length := List.length_pos.mpr hsne
          have e1 : compStep a (s0 ++ s) ['.', '.'] = s0 ++ s.dropLast := by
            have hl2 := getLast_ne_dotdot s (fun x hx => hs x (List.mem_append_right _ hx))
            simp [compStep, hsne, getLast_ne_dotdot _ hs, hl2,
              List.dropLast_append_of_ne_nil _ hsne]
          have e2 : compStep b s ['.', '.'] = s.dropLast := by
            simp [compStep, hsne,
              getLast_ne_dotdot s (fun x hx => hs x (List.mem_append_right _ hx))]
          rw [e1, e2]
          refine ih s0 s.dropLast ?_ ?_
          · intro x hx
            rcases List.mem_append.mp hx with h | h
            · exact hs x (List.mem_append_left _ h)
            · exact hs x (List.mem_append_right _ (List.dropLast_subset _ h))
          · intro pre hp
            have := htail pre hp
            simp only [List.count_cons_self, List.countP_cons, isName] at this
            simp only [List.length_dropLast]
            simp at this
            omega
        · have e1 : ∀ (f : Bool) (t : List StringPiece), compStep f t c = t ++ [c] := by
            intro f t; simp [compStep, h1, h2, h3]
          rw [e1, e1, List.append_assoc]
          refine ih s0 (s ++ [c]) ?_ ?_
          · intro x hx
            rw [← List.append_assoc] at hx
            rcases List.mem_append.mp hx with h | h
            · exact hs x h
            · simp only [List.mem_singleton] at h
              subst h; exact h3
          · intro pre hp
            have := htail pre hp
            have hname : isName c = true := by simp [isName, h1, h2, h3]
            rw [List.count_cons_of_ne (fun e => h3 e.symm), List.countP_cons_of_pos isName pre hname]
              at this
            simp only [List.length_append, List.length_singleton]
            omega

theorem canonicalPathImpl_of_abs (getcwd : Except SystemError AbsolutePath)
    (path : StringPiece) (base : Option AbsolutePath) (h : path.head? = some '/') :
    canonicalPathImpl getcwd path base =
      .ok (makeAbsolutePath (List.foldl (compStep true) [] (path.splitOn '/'))) := by
  unfold canonicalPathImpl
  simp only [canonicalPathData_isAbsolute, canonicalPathData_components, decide_eq_true h,
    if_true]

theorem canonicalPathImpl_of_rel (getcwd : Except SystemError AbsolutePath)
    (path : StringPiece) (base : AbsolutePath) (h : path.head? ≠ some '/') :
    canonicalPathImpl getcwd path (some base) =
      .ok (makeAbsolutePath (resolveComponents (canonicalPathData base).components
        (List.foldl (compStep false) [] (path.splitOn '/')))) := by
  unfold canonicalPathImpl
  simp only [canonicalPathData_isAbsolute, canonicalPathData_components path,
    decide_eq_false h]
  rfl

theorem stackInv_ordinary_of_no_dotdot (a : Bool) (s : List StringPiece) (hs : StackInv a s)
    (hd : ∀ x ∈ s, x ≠ ['.', '.']) : ∀ x ∈ s, Ordinary x := by
  cases s with
  | nil => simp
  | cons h t =>
    intro x hx
    rcases List.mem_cons.mp hx with h1 | h1
    · subst h1
      rcases hs.1 with h2 | h2
      · exact h2
      · exact absurd h2.2 (hd _ (List.mem_cons_self _ _))
    · exact hs.2 x h1

/-- C6: for a base that begins with the separator and a relative path that never climbs
above its own starting point, `canonicalPath(path, base)` equals `canonicalPath` of the
absolute string `base ++ "/" ++ path` (with or without a base). -/
theorem C6_relative_equals_concatenated (getcwd : Except SystemError AbsolutePath)
    (path : StringPiece) (base : AbsolutePath) (hb : base.head? = some '/')
    (hp : path.head? ≠ some '/') (hc : NeverClimbs path) :
    ∃ r, canonicalPathBase getcwd path base = .ok r ∧
      canonicalPath getcwd (base ++ ['/'] ++ path) = .ok r ∧
      ∀ b : AbsolutePath, canonicalPathBase getcwd (base ++ ['/'] ++ path) b = .ok r := by
  have hB := canonicalPathData_abs_ordinary base hb
  have hBc := canonicalPathData_components base
  rw [decide_eq_true hb] at hBc
  have hshift := foldl_compStep_shift true false (path.splitOn '/')
    (canonicalPathData base).components []
    (by
      intro x hx
      rw [List.append_nil] at hx
      exact (hB x hx).2.2.1)
    (by
      intro pre hpre
      have := hc pre ((List.mem_inits _ _).mpr hpre)
      simpa using this)
  rw [List.append_nil] at hshift
  have hCord := stackInv_ordinary_of_no_dotdot false _
    (stackInv_foldl false (path.splitOn '/') [] trivial (splitOn_no_slash path)) hshift.2
  have habs : (base ++ ['/'] ++ path).head? = some '/' := by
    cases base with
    | nil => simp at hb
    | cons x xs => simpa using hb
  have hsplit : (base ++ ['/'] ++ path).splitOn '/' = base.splitOn '/' ++ path.splitOn '/' := by
    rw [List.append_assoc, List.singleton_append, splitOn_append_sep]
  have hjoined : ∀ b : Option AbsolutePath,
      canonicalPathImpl getcwd (base ++ ['/'] ++ path) b =
        .ok (makeAbsolutePath ((canonicalPathData base).components ++
          List.foldl (compStep false) [] (path.splitOn '/'))) := by
    intro b
    rw [canonicalPathImpl_of_abs getcwd _ b habs, hsplit, List.foldl_append, ← hBc, hshift.1]
  refine ⟨_, ?_, hjoined none, fun b => hjoined (some b)⟩
  unfold canonicalPathBase
  rw [canonicalPathImpl_of_rel getcwd path base hp, resolveComponents_ordinary _ _ hCord]

/-- C6 at the path `"a/../b"` and the base `"/x/y"`: both sides are `"/x/y/b"`. -/
theorem C6_witness :
    "/x/y".toList.head? = some '/' ∧ "a/../b".toList.head? ≠ some '/' ∧
      NeverClimbs "a/../b".toList ∧
      canonicalPathBase (.error ⟨"getcwd() failed"⟩) "a/../b".toList "/x/y".toList =
        .ok "/x/y/b".toList ∧
      canonicalPath (.error ⟨"getcwd() failed"⟩) "/x/y/a/../b".toList = .ok "/x/y/b".toList ∧
      ∃ r, canonicalPathBase (.error ⟨"getcwd() failed"⟩) "a/../b".toList "/x/y".toList = .ok r ∧
        canonicalPath (.error ⟨"getcwd() failed"⟩) ("/x/y".toList ++ ['/'] ++ "a/../b".toList) =
          .ok r ∧
        ∀ b : AbsolutePath,
          canonicalPathBase (.error ⟨"getcwd() failed"⟩)
            ("/x/y".toList ++ ['/'] ++ "a/../b".toList) b = .ok r :=
  ⟨by decide, by decide, by decide, rfl, rfl,
    C6_relative_equals_concatenated (.error ⟨"getcwd() failed"⟩) "a/../b".toList
      "/x/y".toList (by decide) (by decide) (by decide)⟩

theorem joinParts_splitOn (t : List Char) : joinParts (t.splitOn '/') = '/' :: t := by
  induction t with
  | nil => simp [joinParts]
  | cons c r ih =>
    rw [splitOn_cons]
    by_cases hc : c = '/'
    · rw [if_pos hc, joinParts_cons, ih, hc]; rfl
    · rw [if_neg hc]
      cases hs : r.splitOn '/' with
      | nil => exact absurd hs (splitOn_ne_nil r)
      | cons h tl =>
        rw [hs, joinParts_cons] at ih
        have hr : h ++ joinParts tl = r := List.tail_eq_of_cons_eq ih
        rw [List.modifyHead_cons, joinParts_cons, List.cons_append, hr]

theorem foldl_compStep_names (a : Bool) (comps : List StringPiece)
    (h : ∀ c ∈ comps, c ≠ [] ∧ c ≠ ['.'] ∧ c ≠ ['.', '.']) :
    ∀ s, comps.foldl (compStep a) s = s ++ comps := by
  induction comps with
  | nil => intro s; simp
  | cons c cs ih =>
    intro s
    have hc := h c (List.mem_cons_self _ _)
    have e1 : compStep a s c = s ++ [c] := by simp [compStep, hc.1, hc.2.1, hc.2.2]
    rw [List.foldl_cons, e1, ih (fun x hx => h x (List.mem_cons_of_mem _ hx))]
    simp

theorem canonicalPathImpl_empty_path (getcwd : Except SystemError AbsolutePath)
    (base : AbsolutePath) :
    canonicalPathImpl getcwd [] (some base) =
      .ok (makeAbsolutePath (canonicalPathData base).components) := by
  rw [canonicalPathImpl_of_rel getcwd [] base (by simp)]
  simp [compStep_nil, resolveComponents]

/-- C7: for a base that is already in canonical form `canonicalPath("", base)` returns
the base unchanged, and for the root base (the empty value, or the string `"/"`) it
returns the root. -/
theorem C7_empty_path_yields_base (getcwd : Except SystemError AbsolutePath) :
    (∀ base : AbsolutePath, IsCanonicalBase base →
        canonicalPathBase getcwd [] base = .ok base) ∧
      canonicalPathBase getcwd [] rootPath = .ok rootPath ∧
      canonicalPathBase getcwd [] ['/'] = .ok rootPath := by
  refine ⟨?_, rfl, rfl⟩
  intro base hb
  obtain ⟨hhead, _, hcomps⟩ := hb
  cases base with
  | nil => simp at hhead
  | cons x t =>
    have hx : x = '/' := by simpa using hhead
    subst hx
    simp only [List.tail_cons] at hcomps
    have hB : (canonicalPathData ('/' :: t)).components = t.splitOn '/' := by
      rw [canonicalPathData_components, splitOn_cons, if_pos rfl, List.foldl_cons,
        compStep_nil, foldl_compStep_names _ _ hcomps]
      simp
    unfold canonicalPathBase
    rw [canonicalPathImpl_empty_path, hB, makeAbsolutePath_eq, if_neg (splitOn_ne_nil t),
      joinParts_splitOn]

/-- C7 at the base `"/x"`: `canonicalPath("", "/x")` is `"/x"`. -/
theorem C7_witness :
    IsCanonicalBase "/x".toList ∧
      canonicalPathBase (.error ⟨"getcwd() failed"⟩) [] "/x".toList = .ok "/x".toList :=
  ⟨by decide,
    (C7_empty_path_yields_base (.error ⟨"getcwd() failed"⟩)).1 "/x".toList (by decide)⟩

/-! ## Theorems: `dirname` and `basename` -/

theorem rfind_eq_none (c : Char) (path : StringPiece) : rfind path c = none ↔ c ∉ path := by
  induction path with
  | nil => simp [rfind]
  | cons x xs ih =>
    cases hr : rfind xs c with
    | none =>
      have hnot := ih.mp hr
      by_cases hx : x = c
      · simp [rfind, hr, hx]
      · simp [rfind, hr, hx, hnot, Ne.symm hx]
    | some i =>
      have hmem : c ∈ xs := by
        by_contra hcon
        rw [ih.mpr hcon] at hr
        exact Option.noConfusion hr
      simp [rfind, hr, hmem]

theorem rfind_eq_some (c : Char) (path : StringPiece) :
    ∀ i, rfind path c = some i →
      path = path.take i ++ c :: path.drop (i + 1) ∧ c ∉ path.drop (i + 1) := by
  induction path with
  | nil => intro i h; simp [rfind] at h
  | cons x xs ih =>
    intro i h
    cases hr : rfind xs c with
    | none =>
      have hnot := (rfind_eq_none c xs).mp hr
      by_cases hx : x = c
      · simp only [rfind, hr, hx, if_true, Option.some.injEq] at h
        subst h
        simp [hx, hnot]
      · simp [rfind, hr, hx] at h
    | some j =>
      simp only [rfind, hr, Option.some.injEq] at h
      subst h
      obtain ⟨h1, h2⟩ := ih j hr
      refine ⟨?_, by simpa using h2⟩
      simp only [List.take_succ_cons, List.drop_succ_cons, List.cons_append]
      rw [← h1]

/-- C8: if `path` contains a separator, `dirname(path)` is the part of `path` strictly
before its last separator and `basename(path)` the part strictly after it; if `path`
contains no separator, `dirname(path)` is empty and `basename(path)` is `path` itself. -/
theorem C8_dirname_basename (path : StringPiece) :
    ('/' ∈ path → ∃ pre suf, path = pre ++ '/' :: suf ∧ '/' ∉ suf ∧
        dirname path = pre ∧ basename path = suf) ∧
      ('/' ∉ path → dirname path = [] ∧ basename path = path) := by
  constructor
  · intro hmem
    cases hr : rfind path '/' with
    | none => exact absurd hmem ((rfind_eq_none '/' path).mp hr)
    | some i =>
      obtain ⟨h1, h2⟩ := rfind_eq_some '/' path i hr
      exact ⟨path.take i, path.drop (i + 1), h1, h2, by simp [dirname, hr],
        by simp [basename, hr]⟩
  · intro hnot
    have hr := (rfind_eq_none '/' path).mpr hnot
    simp [dirname, basename, hr]

/-- C8 at `"a/b/c"` and `"c"`: `dirname("a/b/c")` is `"a/b"`, `basename("a/b/c")` is
`"c"`, `dirname("c")` is empty and `basename("c")` is `"c"`. -/
theorem C8_witness :
    ('/' ∈ "a/b/c".toList ∧ ∃ pre suf, "a/b/c".toList = pre ++ '/' :: suf ∧ '/' ∉ suf ∧
        dirname "a/b/c".toList = pre ∧ basename "a/b/c".toList = suf) ∧
      ('/' ∉ "c".toList ∧ dirname "c".toList = [] ∧ basename "c".toList = "c".toList) ∧
      dirname "a/b/c".toList = "a/b".toList ∧ basename "a/b/c".toList = "c".toList :=
  ⟨⟨by decide, (C8_dirname_basename "a/b/c".toList).1 (by decide)⟩,
    ⟨by decide, (C8_dirname_basename "c".toList).2 (by decide)⟩, by decide, by decide⟩

/-! ## Theorems: failure of the working-directory lookup -/

/-- C9: with the working-directory lookup given as a path or a system error,
`canonicalPath(path, base)` never fails and its result does not depend on the lookup;
`canonicalPath(path)` fails if and only if `path` does not begin with the separator and
the lookup fails (and then with the error of the lookup); for a path that begins with the
separator its result does not depend on the lookup. -/
theorem C9_failure_only_from_getcwd :
    (∀ (path : StringPiece) (base : AbsolutePath), ∃ r,
        ∀ getcwd : Except SystemError AbsolutePath,
          canonicalPathBase getcwd path base = .ok r) ∧
      (∀ (getcwd : Except SystemError AbsolutePath) (path : StringPiece) (e : SystemError),
        canonicalPath getcwd path = .error e ↔
          (path.head? ≠ some '/' ∧ getcwd = .error e)) ∧
      (∀ path : StringPiece, path.head? = some '/' → ∃ r,
        ∀ getcwd : Except SystemError AbsolutePath, canonicalPath getcwd path = .ok r) := by
  refine ⟨?_, ?_, ?_⟩
  · intro path base
    by_cases ha : (canonicalPathData path).isAbsolute = true
    · exact ⟨makeAbsolutePath (canonicalPathData path).components, fun g => by
        simp [canonicalPathBase, canonicalPathImpl, ha]⟩
    · exact ⟨makeAbsolutePath (resolveComponents (canonicalPathData base).components
        (canonicalPathData path).components), fun g => by
        simp [canonicalPathBase, canonicalPathImpl, ha]⟩
  · intro getcwd path e
    by_cases hp : path.head? = some '/'
    · have := canonicalPathImpl_of_abs getcwd path none hp
      unfold canonicalPath
      rw [this]
      simp [hp]
    · have ha : (canonicalPathData path).isAbsolute = false := by
        rw [canonicalPathData_isAbsolute]; exact decide_eq_false hp
      cases getcwd with
      | error e2 => simp [canonicalPath, canonicalPathImpl, ha, hp]
      | ok cwd => simp [canonicalPath, canonicalPathImpl, ha, hp]
  · intro path hp
    exact ⟨_, fun g => canonicalPathImpl_of_abs g path none hp⟩

/-- C9 at `"/a/b"` and `"a/b"`: the absolute path is resolved although the lookup fails,
and the relative one fails with the error of the lookup. -/
theorem C9_witness :
    "/a/b".toList.head? = some '/' ∧
      (∃ r, ∀ getcwd : Except SystemError AbsolutePath,
        canonicalPath getcwd "/a/b".toList = .ok r) ∧
      ("a/b".toList.head? ≠ some '/' ∧
        (.error ⟨"getcwd() failed"⟩ : Except SystemError AbsolutePath) =
          .error ⟨"getcwd() failed"⟩) ∧
      canonicalPath (.error ⟨"getcwd() failed"⟩) "a/b".toList = .error ⟨"getcwd() failed"⟩ :=
  ⟨by decide, C9_failure_only_from_getcwd.2.2 "/a/b".toList (by decide),
    ⟨by decide, rfl⟩,
    (C9_failure_only_from_getcwd.2.1 (.error ⟨"getcwd() failed"⟩) "a/b".toList
      ⟨"getcwd() failed"⟩).mpr ⟨by decide, rfl⟩⟩

/-! ## Theorems: the directive table -/

theorem removeArgument_of_file (mount : Mount) (listing : DirectoryListing)
    (path : RelativePath) (force : Bool) (st : DirstateState)
    (h : Dirstate.namesDirectory mount listing path = false) :
    Dirstate.removeArgument mount listing path force st =
      Dirstate.remove mount path force st := by
  simp [Dirstate.removeArgument, h]

theorem namesDirectory_of_disk (mount : Mount) (listing : DirectoryListing)
    (path : RelativePath) (content : String) (h : mount.disk path = some content) :
    Dirstate.namesDirectory mount listing path = false := by
  simp [Dirstate.namesDirectory, h]

theorem removeAll_single_file (mount : Mount) (listing : DirectoryListing)
    (path : RelativePath) (force : Bool) (st : DirstateState)
    (h : Dirstate.namesDirectory mount listing path = false) :
    Dirstate.removeAll mount listing [path] force st =
      Dirstate.remove mount path force st := by
  rw [Dirstate.removeAll, Dirstate.removeAll, removeArgument_of_file _ _ _ _ _ h]

theorem contentDiffers_in_snapshot (mount : Mount) (path : RelativePath)
    (h : Dirstate.contentDiffers mount path = true) : (mount.snapshot path).isSome = true := by
  unfold Dirstate.contentDiffers at h
  cases hs : mount.snapshot path with
  | none => simp [hs] at h
  | some c => rfl

/-- C4: for a tracked path whose on-disk content differs from the content of the base
snapshot, `removeAll([p], force=false)` appends exactly one "uncommitted changes" error
and leaves the directive table unchanged, whereas `removeAll([p], force=true)` appends no
error and leaves the table with a Remove directive for the path (and nothing else
changed). -/
theorem C4_removeAll_uncommitted_changes (mount : Mount) (listing : DirectoryListing)
    (directives : DirectiveTable) (errors : List DirstateAddRemoveError) (p : RelativePath)
    (htracked : Dirstate.isTracked mount directives p = true)
    (hdiff : Dirstate.contentDiffers mount p = true) :
    Dirstate.removeAll mount listing [p] false ⟨directives, errors⟩ =
        ⟨directives, errors ++ [⟨p, "uncommitted changes"⟩]⟩ ∧
      (Dirstate.removeAll mount listing [p] true ⟨directives, errors⟩).errorsToReport = errors ∧
      (Dirstate.removeAll mount listing [p] true ⟨directives, errors⟩).userDirectives p =
        some UserStatusDirective.Remove ∧
      ∀ q, q ≠ p →
        (Dirstate.removeAll mount listing [p] true ⟨directives, errors⟩).userDirectives q =
          directives q := by
  have hsnap := contentDiffers_in_snapshot mount p hdiff
  have hnone : (mount.snapshot p).isNone = false := by
    cases hs : mount.snapshot p with
    | none => simp [hs] at hsnap
    | some c => rfl
  have hfile : Dirstate.namesDirectory mount listing p = false := by
    unfold Dirstate.contentDiffers at hdiff
    cases hd : mount.disk p with
    | none => simp [hd] at hdiff
    | some c => exact namesDirectory_of_disk mount listing p c hd
  rw [removeAll_single_file _ _ _ _ _ hfile, removeAll_single_file _ _ _ _ _ hfile]
  refine ⟨?_, ?_, ?_, ?_⟩
  · simp [Dirstate.remove, htracked, hdiff]
  · simp [Dirstate.remove, htracked, hdiff, hnone]
  · simp [Dirstate.remove, htracked, hdiff, hnone]
  · intro q hq
    simp [Dirstate.remove, htracked, hdiff, hnone, hq]

/-- C4 at the file `f.txt` of `exampleMount`, committed and edited on disk, with an empty
directive table. -/
theorem C4_witness :
    Dirstate.isTracked exampleMount emptyDirectives "f.txt" = true ∧
      Dirstate.contentDiffers exampleMount "f.txt" = true ∧
      Dirstate.removeAll exampleMount noDirectories ["f.txt"] false ⟨emptyDirectives, []⟩ =
        ⟨emptyDirectives, [] ++ [⟨"f.txt", "uncommitted changes"⟩]⟩ ∧
      (Dirstate.removeAll exampleMount noDirectories ["f.txt"] true ⟨emptyDirectives, []⟩).errorsToReport =
        [] ∧
      (Dirstate.removeAll exampleMount noDirectories ["f.txt"] true ⟨emptyDirectives, []⟩).userDirectives
        "f.txt" = some UserStatusDirective.Remove ∧
      ∀ q, q ≠ "f.txt" →
        (Dirstate.removeAll exampleMount noDirectories ["f.txt"] true ⟨emptyDirectives, []⟩).userDirectives q =
          emptyDirectives q :=
  ⟨by decide, by decide,
    C4_removeAll_uncommitted_changes exampleMount noDirectories emptyDirectives [] "f.txt"
      (by decide)
      (by decide)⟩

/-- C5: after `onSnapshotChanged(tree)` the table contains exactly the directives of the
old table that are not redundant: an Add directive survives iff its path is absent from
the tree, a Remove directive survives iff its path is present in the tree, and every
surviving directive is unchanged; hence no surviving Add names a path in the tree and no
surviving Remove names a path missing from it. -/
theorem C5_onSnapshotChanged_prunes_redundant (tree : RelativePath → Bool)
    (directives : DirectiveTable) :
    (∀ p d, Dirstate.onSnapshotChanged tree directives p = some d ↔
        (directives p = some d ∧ (d = UserStatusDirective.Add → tree p = false) ∧
          (d = UserStatusDirective.Remove → tree p = true))) ∧
      (∀ p, Dirstate.onSnapshotChanged tree directives p = some UserStatusDirective.Add →
        tree p = false) ∧
      (∀ p, Dirstate.onSnapshotChanged tree directives p = some UserStatusDirective.Remove →
        tree p = true) := by
  have key : ∀ p d, Dirstate.onSnapshotChanged tree directives p = some d ↔
      (directives p = some d ∧ (d = UserStatusDirective.Add → tree p = false) ∧
        (d = UserStatusDirective.Remove → tree p = true)) := by
    intro p d
    unfold Dirstate.onSnapshotChanged
    cases hd : directives p with
    | none => simp
    | some x =>
      cases x <;> cases d <;> cases ht : tree p <;> simp
  refine ⟨key, ?_, ?_⟩
  · intro p h
    exact ((key p _).mp h).2.1 rfl
  · intro p h
    exact ((key p _).mp h).2.2 rfl

/-- C5 at a table with an Add directive for `a` and a Remove directive for `b`, and a new
tree that contains `a` only: both directives are dropped, the first because the tree
now has the path, the second because it no longer has it. -/
theorem C5_witness :
    Dirstate.onSnapshotChanged (fun q => decide (q = "a"))
        (fun q => if q = "a" then some UserStatusDirective.Add
          else if q = "b" then some UserStatusDirective.Remove else none) "a" ≠
          some UserStatusDirective.Add ∧
      Dirstate.onSnapshotChanged (fun q => decide (q = "a"))
        (fun q => if q = "a" then some UserStatusDirective.Add
          else if q = "b" then some UserStatusDirective.Remove else none) "b" ≠
          some UserStatusDirective.Remove :=
  ⟨fun h => absurd ((C5_onSnapshotChanged_prunes_redundant _ _).2.1 "a" h) (by decide),
    fun h => absurd ((C5_onSnapshotChanged_prunes_redundant _ _).2.2 "b" h) (by decide)⟩

theorem splitOn_append_double_sep (p q : List Char) :
    (p ++ ['/', '/'] ++ q).splitOn '/' = p.splitOn '/' ++ ([] :: q.splitOn '/') := by
  have h : p ++ ['/', '/'] ++ q = p ++ '/' :: ('/' :: q) := by simp
  rw [h, splitOn_append_sep, splitOn_cons, if_pos rfl]

theorem splitOn_append_single_sep (p q : List Char) :
    (p ++ ['/'] ++ q).splitOn '/' = p.splitOn '/' ++ q.splitOn '/' := by
  have h : p ++ ['/'] ++ q = p ++ '/' :: q := by simp
  rw [h, splitOn_append_sep]

theorem head_append_sep (p s q : List Char) :
    (p ++ ('/' :: s) ++ q).head? = (p ++ ['/']).head? := by
  cases p <;> simp

/-- C12: for all strings `p` and `q`, `canonicalPathData(p ++ "/" ++ q)` and
`canonicalPathData(p ++ "//" ++ q)` return the same components and the same `isAbsolute`
flag, so `canonicalPath` gives the same result for both, with or without a base. -/
theorem C12_double_separator_same_as_single (p q : StringPiece) :
    canonicalPathData (p ++ ['/'] ++ q) = canonicalPathData (p ++ ['/', '/'] ++ q) ∧
      (∀ (getcwd : Except SystemError AbsolutePath) (base : AbsolutePath),
        canonicalPathBase getcwd (p ++ ['/'] ++ q) base =
          canonicalPathBase getcwd (p ++ ['/', '/'] ++ q) base) ∧
      ∀ getcwd : Except SystemError AbsolutePath,
        canonicalPath getcwd (p ++ ['/'] ++ q) = canonicalPath getcwd (p ++ ['/', '/'] ++ q) := by
  have hdata : canonicalPathData (p ++ ['/'] ++ q) = canonicalPathData (p ++ ['/', '/'] ++ q) := by
    rw [canonicalPathData_eq, canonicalPathData_eq, splitOn_append_single_sep,
      splitOn_append_double_sep, head_append_sep p [] q, head_append_sep p ['/'] q,
      List.foldl_append, List.foldl_append, List.foldl_cons, compStep_nil]
  refine ⟨hdata, fun getcwd base => ?_, fun getcwd => ?_⟩
  · unfold canonicalPathBase canonicalPathImpl
    rw [hdata]
  · unfold canonicalPath canonicalPathImpl
    rw [hdata]

/-- C13: for every non-empty path `p` and every base, `canonicalPath(p ++ "/", base)`
equals `canonicalPath(p, base)`, and likewise without a base: a trailing separator never
changes the result. -/
theorem C13_trailing_separator_ignored (p : StringPiece) (hp : p ≠ []) :
    canonicalPathData (p ++ ['/']) = canonicalPathData p ∧
      (∀ (getcwd : Except SystemError AbsolutePath) (base : AbsolutePath),
        canonicalPathBase getcwd (p ++ ['/']) base = canonicalPathBase getcwd p base) ∧
      ∀ getcwd : Except SystemError AbsolutePath,
        canonicalPath getcwd (p ++ ['/']) = canonicalPath getcwd p := by
  have hhead : (p ++ ['/']).head? = p.head? := by
    cases p with
    | nil => exact absurd rfl hp
    | cons x xs => simp
  have hsplit : (p ++ ['/']).splitOn '/' = p.splitOn '/' ++ [[]] := by
    have := splitOn_append_sep p []
    simpa using this
  have hdata : canonicalPathData (p ++ ['/']) = canonicalPathData p := by
    rw [canonicalPathData_eq, canonicalPathData_eq, hsplit, hhead, List.foldl_append,
      List.foldl_cons, compStep_nil, List.foldl_nil]
  refine ⟨hdata, fun getcwd base => ?_, fun getcwd => ?_⟩
  · unfold canonicalPathBase canonicalPathImpl
    rw [hdata]
  · unfold canonicalPath canonicalPathImpl
    rw [hdata]

/-- C13 at `"a/b"` with the base `"/x"`: `canonicalPath("a/b/", "/x")` and
`canonicalPath("a/b", "/x")` are both `"/x/a/b"`. -/
theorem C13_witness :
    "a/b".toList ≠ [] ∧
      canonicalPathBase (.error ⟨"getcwd() failed"⟩) "a/b".toList "/x".toList =
        .ok "/x/a/b".toList ∧
      canonicalPathBase (.error ⟨"getcwd() failed"⟩) ("a/b".toList ++ ['/']) "/x".toList =
        canonicalPathBase (.error ⟨"getcwd() failed"⟩) "a/b".toList "/x".toList :=
  ⟨by decide, rfl,
    (C13_trailing_separator_ignored "a/b".toList (by decide)).2.1
      (.error ⟨"getcwd() failed"⟩) "/x".toList⟩

/-! ## Theorems: where `..` can occur in the component vector -/

theorem pairwise_of_all_ne_dotdot (t : List StringPiece) (h : ∀ c ∈ t, c ≠ ['.', '.']) :
    List.Pairwise (fun a b : StringPiece => a ≠ ['.', '.'] → b ≠ ['.', '.']) t := by
  induction t with
  | nil => exact List.Pairwise.nil
  | cons x xs ih =>
    refine List.Pairwise.cons ?_ (ih (fun c hc => h c (List.mem_cons_of_mem _ hc)))
    intro b hb _
    exact h b (List.mem_cons_of_mem _ hb)

theorem stackInv_pairwise (a : Bool) (s : List StringPiece) (hs : StackInv a s) :
    List.Pairwise (fun x y : StringPiece => x ≠ ['.', '.'] → y ≠ ['.', '.']) s := by
  cases s with
  | nil => exact List.Pairwise.nil
  | cons h t =>
    have ht : ∀ c ∈ t, c ≠ ['.', '.'] := fun c hc => (hs.2 c hc).2.2.1
    exact List.Pairwise.cons (fun b hb _ => ht b hb) (pairwise_of_all_ne_dotdot t ht)

theorem stackInv_prefix_form (a : Bool) (s : List StringPiece) (hs : StackInv a s) :
    ∃ (k : Nat) (rest : List StringPiece),
      s = List.replicate k ['.', '.'] ++ rest ∧ ∀ c ∈ rest, c ≠ ['.', '.'] := by
  cases s with
  | nil => exact ⟨0, [], rfl, by simp⟩
  | cons h t =>
    have ht : ∀ c ∈ t, c ≠ ['.', '.'] := fun c hc => (hs.2 c hc).2.2.1
    by_cases hh : h = ['.', '.']
    · exact ⟨1, t, by simp [hh, List.replicate], ht⟩
    · refine ⟨0, h :: t, rfl, ?_⟩
      intro c hc
      rcases List.mem_cons.mp hc with h1 | h1
      · subst h1; exact hh
      · exact ht c h1

theorem stackInv_component_shape (a : Bool) (s : List StringPiece) (hs : StackInv a s) :
    ∀ c ∈ s, c ≠ [] ∧ c ≠ ['.'] ∧ '/' ∉ c := by
  cases s with
  | nil => simp
  | cons h t =>
    intro c hc
    rcases List.mem_cons.mp hc with h1 | h1
    · subst h1
      rcases hs.1 with h2 | h2
      · exact ⟨h2.1, h2.2.1, h2.2.2.2⟩
      · rw [h2.2]; decide
    · exact ⟨(hs.2 c h1).1, (hs.2 c h1).2.1, (hs.2 c h1).2.2.2⟩

/-- C14: in the component list returned by `canonicalPathData` no `..` occurs after a
component other than `..` (the `..` components form a prefix of the list), no `..` occurs
at all when `isAbsolute` is true, and no component is empty, equal to `.`, or contains the
separator. -/
theorem C14_dotdot_only_leading (path : StringPiece) :
    List.Pairwise (fun a b : StringPiece => a ≠ ['.', '.'] → b ≠ ['.', '.'])
        (canonicalPathData path).components ∧
      (∃ (k : Nat) (rest : List StringPiece),
        (canonicalPathData path).components = List.replicate k ['.', '.'] ++ rest ∧
          ∀ c ∈ rest, c ≠ ['.', '.']) ∧
      ((canonicalPathData path).isAbsolute = true →
        ∀ c ∈ (canonicalPathData path).components, c ≠ ['.', '.']) ∧
      ∀ c ∈ (canonicalPathData path).components, c ≠ [] ∧ c ≠ ['.'] ∧ '/' ∉ c := by
  have hinv := canonicalPathData_stackInv path
  refine ⟨stackInv_pairwise _ _ hinv, stackInv_prefix_form _ _ hinv, ?_,
    stackInv_component_shape _ _ hinv⟩
  intro habs c hc
  rw [habs] at hinv
  exact (stackInv_true _ hinv c hc).2.2.1

/-- C14 at the absolute path `"/../a/./b"`: its flag is set and none of its components
`a`, `b` is `..`. -/
theorem C14_witness :
    (canonicalPathData "/../a/./b".toList).isAbsolute = true ∧
      (canonicalPathData "/../a/./b".toList).components = ["a".toList, "b".toList] ∧
      ∀ c ∈ (canonicalPathData "/../a/./b".toList).components, c ≠ ['.', '.'] :=
  ⟨by decide, by decide, (C14_dotdot_only_leading "/../a/./b".toList).2.2.1 (by decide)⟩

/-! ## Theorems: idempotence and the reach of a relative path -/

theorem canonicalPathImpl_joinParts (getcwd : Except SystemError AbsolutePath)
    (comps : List StringPiece) (hne : comps ≠ []) (h : ∀ c ∈ comps, Ordinary c)
    (base : Option AbsolutePath) :
    canonicalPathImpl getcwd (joinParts comps) base = .ok (joinParts comps) := by
  have hhead : (joinParts comps).head? = some '/' := by
    obtain ⟨x, xs, hx⟩ := List.exists_cons_of_ne_nil hne
    rw [hx, joinParts_cons]; rfl
  rw [canonicalPathImpl_of_abs getcwd _ base hhead,
    splitOn_joinParts comps (fun x hx => (h x hx).2.2.2), List.foldl_cons, compStep_nil,
    foldl_compStep_names true comps (fun c hc => ⟨(h c hc).1, (h c hc).2.1, (h c hc).2.2.1⟩),
    List.nil_append, makeAbsolutePath_eq, if_neg hne]

/-- C15: for every path `p` and every base that begins with the separator, if the result
`r` of `canonicalPath(p, base)` is not the root, then `canonicalPath(r, b)` is `r` for
every base `b`, and `canonicalPath(r)` is `r` whatever the working-directory lookup
gives. -/
theorem C15_canonicalPath_idempotent (getcwd : Except SystemError AbsolutePath)
    (p : StringPiece) (base : AbsolutePath) (hb : base.head? = some '/') :
    ∃ r, canonicalPathBase getcwd p base = .ok r ∧
      (r ≠ rootPath →
        (∀ (g : Except SystemError AbsolutePath) (b : AbsolutePath),
          canonicalPathBase g r b = .ok r) ∧
        ∀ g : Except SystemError AbsolutePath, canonicalPath g r = .ok r) := by
  obtain ⟨comps, hc, hr⟩ := canonicalPathImpl_base_ordinary getcwd p base hb
  refine ⟨makeAbsolutePath comps, hr, ?_⟩
  intro hroot
  have hne : comps ≠ [] := by
    intro hnil
    apply hroot
    rw [hnil]; rfl
  rw [makeAbsolutePath_eq, if_neg hne]
  exact ⟨fun g b => canonicalPathImpl_joinParts g comps hne hc (some b),
    fun g => canonicalPathImpl_joinParts g comps hne hc none⟩

/-- C15 at the path `"a/../b"` and the base `"/x/y"`: the result `"/x/y/b"` is a fixed
point of `canonicalPath`. -/
theorem C15_witness :
    "/x/y".toList.head? = some '/' ∧
      canonicalPathBase (.error ⟨"getcwd() failed"⟩) "a/../b".toList "/x/y".toList =
        .ok "/x/y/b".toList ∧
      canonicalPath (.error ⟨"getcwd() failed"⟩) "/x/y/b".toList = .ok "/x/y/b".toList ∧
      ∃ r, canonicalPathBase (.error ⟨"getcwd() failed"⟩) "a/../b".toList "/x/y".toList =
          .ok r ∧
        (r ≠ rootPath →
          (∀ (g : Except SystemError AbsolutePath) (b : AbsolutePath),
            canonicalPathBase g r b = .ok r) ∧
          ∀ g : Except SystemError AbsolutePath, canonicalPath g r = .ok r) :=
  ⟨by decide, rfl, rfl,
    C15_canonicalPath_idempotent (.error ⟨"getcwd() failed"⟩) "a/../b".toList "/x/y".toList
      (by decide)⟩

theorem stackInv_count_dotdot (a : Bool) (s : List StringPiece) (hs : StackInv a s) :
    s.count ['.', '.'] ≤ 1 ∧ ∀ c ∈ s.tail, c ≠ ['.', '.'] := by
  cases s with
  | nil => simp
  | cons h t =>
    have ht : ∀ c ∈ t, c ≠ ['.', '.'] := fun c hc => (hs.2 c hc).2.2.1
    have hz : t.count ['.', '.'] = 0 := List.count_eq_zero.mpr (fun hm => ht _ hm rfl)
    refine ⟨?_, ht⟩
    rw [List.count_cons, hz]
    split_ifs <;> omega

theorem resolveComponents_keeps_prefix (a : Bool) (b comps : List StringPiece)
    (hc : StackInv a comps) : b.dropLast <+: resolveComponents b comps := by
  cases comps with
  | nil =>
    simp only [resolveComponents]
    exact List.dropLast_prefix b
  | cons x xs =>
    by_cases hx : x = ['.', '.']
    · subst hx
      rw [resolveComponents_dotdot, resolveComponents_ordinary _ _ hc.2]
      exact List.prefix_append _ _
    · have hne : resolveComponents b (x :: xs) = b ++ (x :: xs) := by
        simp [resolveComponents, hx]
      rw [hne]
      exact (List.dropLast_prefix b).trans (List.prefix_append _ _)

theorem makeAbsolutePath_prefix (xs ys : List StringPiece) (h : xs <+: ys) :
    joinParts xs <+: makeAbsolutePath ys := by
  obtain ⟨zs, hz⟩ := h
  rw [makeAbsolutePath_eq]
  by_cases hne : ys = []
  · rw [if_pos hne]
    have hx : xs = [] := by
      rw [hne] at hz
      exact (List.append_eq_nil.mp hz).1
    rw [hx]
    exact List.nil_prefix
  · rw [if_neg hne, ← hz, joinParts_append]
    exact List.prefix_append _ _

/-- C16: for every relative path `canonicalPathData` returns at most one `..` component,
and only at index 0; consequently, for every base the result of `canonicalPath(path,
base)` starts with all the components of the base but the last one. -/
theorem C16_relative_removes_at_most_one (path : StringPiece)
    (hrel : path.head? ≠ some '/') :
    (canonicalPathData path).components.count ['.', '.'] ≤ 1 ∧
      (∀ c ∈ (canonicalPathData path).components.tail, c ≠ ['.', '.']) ∧
      ∀ (getcwd : Except SystemError AbsolutePath) (base : AbsolutePath),
        ∃ parts : List StringPiece,
          canonicalPathBase getcwd path base = .ok (makeAbsolutePath parts) ∧
          (canonicalPathData base).components.dropLast <+: parts ∧
          joinParts (canonicalPathData base).components.dropLast <+:
            makeAbsolutePath parts := by
  have hinv := canonicalPathData_stackInv path
  have hcount := stackInv_count_dotdot _ _ hinv
  refine ⟨hcount.1, hcount.2, ?_⟩
  intro getcwd base
  have hpre := resolveComponents_keeps_prefix _ (canonicalPathData base).components _ hinv
  refine ⟨resolveComponents (canonicalPathData base).components
    (canonicalPathData path).components, ?_, hpre, makeAbsolutePath_prefix _ _ hpre⟩
  unfold canonicalPathBase
  rw [canonicalPathImpl_of_rel getcwd path base hrel, canonicalPathData_components path,
    decide_eq_false hrel]

/-- C16 at the path `"../../a"` and the base `"/x/y/z"`: one `..` is kept, and the
result `"/x/y/a"` starts with the components `x`, `y` of the base. -/
theorem C16_witness :
    "../../a".toList.head? ≠ some '/' ∧
      (canonicalPathData "../../a".toList).components = ["..".toList, "a".toList] ∧
      canonicalPathBase (.error ⟨"getcwd() failed"⟩) "../../a".toList "/x/y/z".toList =
        .ok "/x/y/a".toList ∧
      (canonicalPathData "../../a".toList).components.count ['.', '.'] ≤ 1 :=
  ⟨by decide, by decide, rfl,
    (C16_relative_removes_at_most_one "../../a".toList (by decide)).1⟩

/-! ## Theorems: `dirname` and `basename` rebuild the path -/

/-- C17: for every path that contains a separator, `dirname(path) ++ "/" ++
basename(path)` is `path`; and for every path, `basename(path)` contains no separator and
is a suffix of `path`, and `dirname(path)` is a prefix of `path`. -/
theorem C17_dirname_basename_rebuild (path : StringPiece) :
    ('/' ∈ path → dirname path ++ ['/'] ++ basename path = path) ∧
      '/' ∉ basename path ∧ basename path <:+ path ∧ dirname path <+: path := by
  cases hr : rfind path '/' with
  | none =>
    have hnot := (rfind_eq_none '/' path).mp hr
    have hd : dirname path = [] := by simp [dirname, hr]
    have hb : basename path = path := by simp [basename, hr]
    rw [hd, hb]
    exact ⟨fun hmem => absurd hmem hnot, hnot, List.suffix_refl _, List.nil_prefix⟩
  | some i =>
    obtain ⟨h1, h2⟩ := rfind_eq_some '/' path i hr
    have hd : dirname path = path.take i := by simp [dirname, hr]
    have hb : basename path = path.drop (i + 1) := by simp [basename, hr]
    rw [hd, hb]
    refine ⟨fun _ => ?_, h2, List.drop_suffix _ _, List.take_prefix _ _⟩
    rw [List.append_assoc, List.singleton_append]
    exact h1.symm

/-- C17 at `"a/b/c"`: `"a/b" ++ "/" ++ "c"` is the path again. -/
theorem C17_witness :
    '/' ∈ "a/b/c".toList ∧
      dirname "a/b/c".toList ++ ['/'] ++ basename "a/b/c".toList = "a/b/c".toList :=
  ⟨by decide, (C17_dirname_basename_rebuild "a/b/c".toList).1 (by decide)⟩

/-! ## Theorems: adding and then removing an untracked file -/

theorem addAll_untracked_file (mount : Mount) (listing : DirectoryListing)
    (directives : DirectiveTable) (errors : List DirstateAddRemoveError) (p : RelativePath)
    (content : String) (habsent : mount.snapshot p = none)
    (hdisk : mount.disk p = some content) (hfile : listing p = none) :
    Dirstate.addAll mount listing [p] ⟨directives, errors⟩ =
      ⟨fun q => if q = p then some UserStatusDirective.Add else directives q, errors⟩ := by
  by_cases hadd : directives p = some UserStatusDirective.Add
  · have htab : (fun q => if q = p then some UserStatusDirective.Add else directives q) =
        directives := by
      funext q
      by_cases hq : q = p
      · rw [if_pos hq, hq, hadd]
      · rw [if_neg hq]
    simp [Dirstate.addAll, Dirstate.addPath, Dirstate.isTracked, hfile, hdisk, hadd, htab]
  · simp [Dirstate.addAll, Dirstate.addPath, Dirstate.isTracked, hfile, hdisk, habsent, hadd]

/-- C11: for a path that is absent from the base snapshot and present on disk as a file,
`addAll([p])` installs an Add directive, and the following `removeAll([p],
force=false)` clears it without creating a Remove directive and without reporting an
error: the table has no directive for the path, the directives of the other paths are the
ones from before, and the path is classified NotTracked, not Removed. -/
theorem C11_add_then_remove_untracks (mount : Mount) (listing : DirectoryListing)
    (directives : DirectiveTable) (errors : List DirstateAddRemoveError) (p : RelativePath)
    (content : String) (habsent : mount.snapshot p = none)
    (hdisk : mount.disk p = some content) (hfile : listing p = none) :
    (Dirstate.addAll mount listing [p] ⟨directives, errors⟩).userDirectives p =
        some UserStatusDirective.Add ∧
      (Dirstate.removeAll mount listing [p] false
        (Dirstate.addAll mount listing [p] ⟨directives, errors⟩)).userDirectives p = none ∧
      (Dirstate.removeAll mount listing [p] false
        (Dirstate.addAll mount listing [p] ⟨directives, errors⟩)).errorsToReport = errors ∧
      (∀ q, q ≠ p →
        (Dirstate.removeAll mount listing [p] false
          (Dirstate.addAll mount listing [p] ⟨directives, errors⟩)).userDirectives q =
            directives q) ∧
      Dirstate.classify mount
        (Dirstate.removeAll mount listing [p] false
          (Dirstate.addAll mount listing [p] ⟨directives, errors⟩)).userDirectives p =
        StatusCode.NotTracked := by
  rw [addAll_untracked_file mount listing directives errors p content habsent hdisk hfile,
    removeAll_single_file _ _ _ _ _ (namesDirectory_of_disk mount listing p content hdisk)]
  have hdiff : Dirstate.contentDiffers mount p = false := by
    simp [Dirstate.contentDiffers, habsent]
  refine ⟨by simp, ?_, ?_, ?_, ?_⟩
  · simp [Dirstate.remove, Dirstate.isTracked, hdiff, habsent]
  · simp [Dirstate.remove, Dirstate.isTracked, hdiff, habsent]
  · intro q hq
    simp [Dirstate.remove, Dirstate.isTracked, hdiff, habsent, hq]
  · simp [Dirstate.remove, Dirstate.isTracked, hdiff, habsent, Dirstate.classify, hdisk]

/-- C11 at the untracked file `g.txt` of `exampleMount`, with an empty directive table. -/
theorem C11_witness :
    exampleMount.snapshot "g.txt" = none ∧ exampleMount.disk "g.txt" = some "g" ∧
      noDirectories "g.txt" = none ∧
      (Dirstate.removeAll exampleMount noDirectories ["g.txt"] false
        (Dirstate.addAll exampleMount noDirectories ["g.txt"]
          ⟨emptyDirectives, []⟩)).userDirectives "g.txt" = none ∧
      Dirstate.classify exampleMount
        (Dirstate.removeAll exampleMount noDirectories ["g.txt"] false
          (Dirstate.addAll exampleMount noDirectories ["g.txt"]
            ⟨emptyDirectives, []⟩)).userDirectives "g.txt" = StatusCode.NotTracked :=
  ⟨by decide, by decide, rfl,
    (C11_add_then_remove_untracks exampleMount noDirectories emptyDirectives [] "g.txt" "g"
      (by decide) (by decide) rfl).2.1,
    (C11_add_then_remove_untracks exampleMount noDirectories emptyDirectives [] "g.txt" "g"
      (by decide) (by decide) rfl).2.2.2.2⟩

end Eden
